import Mathlib

/-!
# Token layer of `xmltokenizer` (token.go)

A shallow embedding of `token.go`: the `Token`/`Attr`/`Name` records, the
classification predicates `IsEndElement` and `IsEndElementOf`, the snapshot
operation `Copy`, and the recycling pool behind `GetToken`/`PutToken`.

Every index or slice expression carries the bounds check the Go runtime
performs (a failed check is an `Except.error`).

The classification predicates only read a token; they are embedded on token
values, each slice given with the contents of its backing storage. `Copy`
writes through slices that may share storage, among the fields of one token or
between two tokens; it is embedded on slice headers and an explicit memory, so
that the truncate-and-append idiom `append(x[:0], y...)` overwrites in place
whatever array the header points at.
-/

namespace Xmltokenizer

/-! ## Go slices -/

/-- Run-time panics an index or slice expression can raise. -/
inductive Panic where
  | indexOutOfRange
  | sliceBoundsOutOfRange
  deriving DecidableEq, Repr

/-- A Go slice: `arr` is the backing array as seen from the slice's first
element (its length is the capacity), `len` the logical length. -/
structure Slice (α : Type) where
  arr : List α
  len : Nat
  len_le : len ≤ arr.length

namespace Slice

variable {α : Type}

/-- The value `cap(s)`. -/
def cap (s : Slice α) : Nat := s.arr.length

/-- The elements `s[0], …, s[len(s)-1]`: what a reader of the slice observes. -/
def toList (s : Slice α) : List α := s.arr.take s.len

/-- The nil slice (zero value of a slice type). -/
def nil : Slice α := ⟨[], 0, Nat.le_refl 0⟩

/-- A slice freshly allocated from a literal, e.g. `[]byte("foo")`. -/
def ofList (xs : List α) : Slice α := ⟨xs, xs.length, Nat.le_refl _⟩

/-- Index expression `s[i]`; panics unless `i < len(s)`. -/
def index (s : Slice α) (i : Nat) : Except Panic α :=
  if h : i < s.len then
    .ok (s.arr.get ⟨i, Nat.lt_of_lt_of_le h s.len_le⟩)
  else
    .error .indexOutOfRange

/-- Slice expression `s[lo:hi]`; panics unless `lo ≤ hi ≤ cap(s)`. The result
shares the backing array from position `lo` on. -/
def reslice (s : Slice α) (lo hi : Nat) : Except Panic (Slice α) :=
  if h : lo ≤ hi ∧ hi ≤ s.cap then
    .ok ⟨s.arr.drop lo, hi - lo, by
      have h2 : hi ≤ s.arr.length := h.2
      rw [List.length_drop]
      exact Nat.sub_le_sub_right h2 lo⟩
  else
    .error .sliceBoundsOutOfRange

/-- Conversion `string(s)`: the bytes of the slice, compared with `==`
element by element. -/
def string (s : Slice α) : List α := s.toList

instance [Inhabited α] : Inhabited (Slice α) := ⟨nil⟩

end Slice

/-! ## Data model -/

/-- A Go `byte`. -/
abbrev Byte := UInt8

/-- The byte `'/'`. -/
def slash : Byte := 47

/-- An XML name (Local) annotated with a name space identifier (Space). -/
structure Name where
  Space : Slice Byte
  Local : Slice Byte
  Full : Slice Byte
  deriving Inhabited

/-- An XML attribute. -/
structure Attr where
  Name : Name
  Value : Slice Byte
  deriving Inhabited

/-- A single token. -/
structure Token where
  Name : Name
  Attrs : Slice Attr
  Data : Slice Byte
  SelfClosing : Bool
  deriving Inhabited

/-! ## Classification and pairing -/

/-- Method `func (t *Token) IsEndElement() bool`. -/
def Token.IsEndElement (t : Token) : Except Panic Bool := do
  -- `len(t.Name.Full) > 0 && t.Name.Full[0] == '/'`, the right operand being
  -- evaluated only when the left one holds
  let c ← (if t.Name.Full.len > 0 then do
      let b ← t.Name.Full.index 0
      pure (b == slash)
    else pure false)
  if c then
    pure true
  else
    pure false

/-- Method `func (t *Token) IsEndElementOf(t2 *Token) bool`. -/
def Token.IsEndElementOf (t t2 : Token) : Except Panic Bool := do
  let e ← t.IsEndElement
  if !e then
    pure false
  else do
    let rest ← t.Name.Full.reslice 1 t.Name.Full.len
    if rest.string = t2.Name.Full.string then
      pure true
    else
      pure false

/-! ## Slices in shared storage

The fields of a token are slice headers: a pointer into a backing array, a
length and a capacity. Several headers may designate overlapping parts of one
array, and `append` writes through them in place. -/

/-- A Go slice header: the backing array `arr`, the position `off` of the
slice's first element in it, the length `len` and the capacity `cap`. A nil
slice has `len = 0` and `cap = 0`. -/
structure SliceHdr where
  arr : Nat
  off : Nat
  len : Nat
  cap : Nat
  deriving DecidableEq, Inhabited, Repr

/-- The arrays of one element type: `cell a i` is element `i` of array `a`,
and the arrays allocated so far are those numbered below `next`. -/
structure Store (α : Type) where
  cell : Nat → Nat → α
  next : Nat

namespace Store

variable {α : Type}

/-- The elements `r[0], …, r[len(r)-1]` of a slice, as stored. -/
def read (s : Store α) (r : SliceHdr) : List α :=
  (List.range r.len).map (fun k => s.cell r.arr (r.off + k))

/-- Copy of `xs` into array `a` from position `pos` on (the `memmove` that
`append` performs). -/
def write [Inhabited α] (s : Store α) (a pos : Nat) (xs : List α) : Store α :=
  { s with
    cell := fun b i =>
      if b = a ∧ pos ≤ i ∧ i < pos + xs.length then xs.getD (i - pos) default
      else s.cell b i }

/-- Built-in `append(r, xs...)` on shared storage. When the capacity
suffices the elements are written in place after the first `len(r)` ones, into
whatever array `r` points at; otherwise a new array is allocated, of capacity
at least the needed length (`newcap oldCap needed` is the runtime's growth
policy, which Go leaves open), holding the old elements, the new ones and zero
values. -/
def append [Inhabited α] (newcap : Nat → Nat → Nat) (s : Store α) (r : SliceHdr)
    (xs : List α) : Store α × SliceHdr :=
  if r.len + xs.length ≤ r.cap then
    (s.write r.arr (r.off + r.len) xs, { r with len := r.len + xs.length })
  else
    ({ s.write s.next 0
          (s.read r ++ xs ++ List.replicate
            (max (r.len + xs.length) (newcap r.cap (r.len + xs.length)) - (r.len + xs.length))
            default) with
        next := s.next + 1 },
      { arr := s.next, off := 0, len := r.len + xs.length,
        cap := max (r.len + xs.length) (newcap r.cap (r.len + xs.length)) })

/-- The header `r` is well formed and, unless it has no capacity, points into
an allocated array. -/
def Live (s : Store α) (r : SliceHdr) : Prop :=
  r.len ≤ r.cap ∧ (r.cap = 0 ∨ r.arr < s.next)

instance (s : Store α) (r : SliceHdr) : Decidable (s.Live r) := by
  unfold Live; infer_instance

end Store

/-- Slice expression `r[lo:hi]`; panics unless `lo ≤ hi ≤ cap(r)`. The result
shares the backing array. -/
def SliceHdr.reslice (r : SliceHdr) (lo hi : Nat) : Except Panic SliceHdr :=
  if lo ≤ hi ∧ hi ≤ r.cap then
    .ok { arr := r.arr, off := r.off + lo, len := hi - lo, cap := r.cap - lo }
  else
    .error .sliceBoundsOutOfRange

/-- The elements of `q` lie outside the storage `r` can write to: no element
`q[0..len)` is an element `r[0..cap)`. -/
def SliceHdr.Clear (q r : SliceHdr) : Prop :=
  q.arr ≠ r.arr ∨ q.len = 0 ∨ r.cap = 0 ∨ q.off + q.len ≤ r.off ∨ r.off + r.cap ≤ q.off

/-- The buffers `p` and `r` share no storage: no element `p[0..cap)` is an
element `r[0..cap)`. -/
def SliceHdr.Apart (p r : SliceHdr) : Prop :=
  p.arr ≠ r.arr ∨ p.cap = 0 ∨ r.cap = 0 ∨ p.off + p.cap ≤ r.off ∨ r.off + r.cap ≤ p.off

instance (q r : SliceHdr) : Decidable (q.Clear r) := by
  unfold SliceHdr.Clear; infer_instance

instance (p r : SliceHdr) : Decidable (p.Apart r) := by
  unfold SliceHdr.Apart; infer_instance

/-- The struct `Name`, its fields being slice headers. -/
structure NameHdr where
  Space : SliceHdr
  Local : SliceHdr
  Full : SliceHdr
  deriving DecidableEq, Inhabited, Repr

/-- The struct `Attr`, its fields being slice headers. -/
structure AttrHdr where
  Name : NameHdr
  Value : SliceHdr
  deriving DecidableEq, Inhabited, Repr

/-- The struct `Token`, its fields being slice headers. -/
structure TokenHdr where
  Name : NameHdr
  Attrs : SliceHdr
  Data : SliceHdr
  SelfClosing : Bool
  deriving DecidableEq, Inhabited, Repr

/-- The memory a token lives in: the byte arrays and the arrays of `Attr`. -/
structure Heap where
  bytes : Store Byte
  attrs : Store AttrHdr

/-! ## Snapshot -/

/-- Method `func (t *Token) Copy(src Token) *Token`, on the memory `h`. The
receiver is updated in place and returned: the result is the memory after the
call and the state of the receiver, which is what the returned pointer
designates. `src` is passed by value, its buffers are read when each `append`
runs. -/
def TokenHdr.Copy (newcap : Nat → Nat → Nat) (h : Heap) (t : TokenHdr) (src : TokenHdr) :
    Except Panic (Heap × TokenHdr) := do
  let space ← t.Name.Space.reslice 0 0
  let r := h.bytes.append newcap space (h.bytes.read src.Name.Space)
  let h := { h with bytes := r.1 }
  let t := { t with Name.Space := r.2 }
  let loc ← t.Name.Local.reslice 0 0
  let r := h.bytes.append newcap loc (h.bytes.read src.Name.Local)
  let h := { h with bytes := r.1 }
  let t := { t with Name.Local := r.2 }
  let full ← t.Name.Full.reslice 0 0
  let r := h.bytes.append newcap full (h.bytes.read src.Name.Full)
  let h := { h with bytes := r.1 }
  let t := { t with Name.Full := r.2 }
  let attrs ← t.Attrs.reslice 0 0
  let r := h.attrs.append newcap attrs (h.attrs.read src.Attrs) -- shallow copy
  let h := { h with attrs := r.1 }
  let t := { t with Attrs := r.2 }
  let data ← t.Data.reslice 0 0
  let r := h.bytes.append newcap data (h.bytes.read src.Data)
  let h := { h with bytes := r.1 }
  let t := { t with Data := r.2 }
  let t := { t with SelfClosing := src.SelfClosing }
  pure (h, t)

/-- The byte buffers of a token, in the order `Copy` assigns them. -/
def TokenHdr.bufs (t : TokenHdr) : List SliceHdr :=
  [t.Name.Space, t.Name.Local, t.Name.Full, t.Data]

/-- Every buffer of the token is well formed and points into allocated
storage of `h`. -/
def Heap.Sound (h : Heap) (t : TokenHdr) : Prop :=
  (∀ r ∈ t.bufs, h.bytes.Live r) ∧ h.attrs.Live t.Attrs

/-- The byte buffers of the token share no storage with one another. -/
def TokenHdr.Separate (t : TokenHdr) : Prop :=
  t.bufs.Pairwise SliceHdr.Apart

/-- The contents of `q`'s buffers lie outside the storage of `t`'s buffers:
the buffers of `t` do not alias those of `q`. -/
def TokenHdr.ClearOf (q t : TokenHdr) : Prop :=
  (∀ x ∈ q.bufs, ∀ r ∈ t.bufs, x.Clear r) ∧ q.Attrs.Clear t.Attrs

instance (h : Heap) (t : TokenHdr) : Decidable (h.Sound t) := by
  unfold Heap.Sound; infer_instance

instance (t : TokenHdr) : Decidable t.Separate := by
  unfold TokenHdr.Separate; infer_instance

instance (q t : TokenHdr) : Decidable (q.ClearOf t) := by
  unfold TokenHdr.ClearOf; infer_instance

/-- The field values a reader of a token observes: the contents of each
buffer up to its length, the attributes as stored, and the flag. -/
structure TokenView where
  Space : List Byte
  Local : List Byte
  Full : List Byte
  Attrs : List AttrHdr
  Data : List Byte
  SelfClosing : Bool
  deriving DecidableEq

/-- The observable field values of a token in memory `h`. -/
def Heap.view (h : Heap) (t : TokenHdr) : TokenView :=
  { Space := h.bytes.read t.Name.Space
    Local := h.bytes.read t.Name.Local
    Full := h.bytes.read t.Name.Full
    Attrs := h.attrs.read t.Attrs
    Data := h.bytes.read t.Data
    SelfClosing := t.SelfClosing }

/-- The slice a header designates, with the contents of its backing storage
up to the capacity. -/
def Store.load {α : Type} (s : Store α) (r : SliceHdr) : Slice α :=
  ⟨s.read { r with len := r.cap }, min r.len r.cap, by
    simp only [Store.read, List.length_map, List.length_range]
    exact Nat.min_le_right _ _⟩

/-- The name a `Name` struct designates in memory `h`. -/
def Heap.loadName (h : Heap) (n : NameHdr) : Name :=
  { Space := h.bytes.load n.Space, Local := h.bytes.load n.Local, Full := h.bytes.load n.Full }

/-- The attribute an `Attr` struct designates in memory `h`. -/
def Heap.loadAttr (h : Heap) (a : AttrHdr) : Attr :=
  { Name := h.loadName a.Name, Value := h.bytes.load a.Value }

/-- The token a `Token` struct designates in memory `h`: the value the
classification predicates read. -/
def Heap.load (h : Heap) (t : TokenHdr) : Token :=
  { Name := h.loadName t.Name
    Attrs :=
      ⟨(h.attrs.read { t.Attrs with len := t.Attrs.cap }).map h.loadAttr,
        min t.Attrs.len t.Attrs.cap, by
        simp only [Store.read, List.length_map, List.length_range]
        exact Nat.min_le_right _ _⟩
    Data := h.bytes.load t.Data
    SelfClosing := t.SelfClosing }

/-- The statements `x = append(x[:0], xs...)` for a list of buffers `x`, each
with the elements `xs` it receives, run in order; returns the storage and the
new headers. -/
def Store.assignAll {α : Type} [Inhabited α] (g : Nat → Nat → Nat) (s : Store α) :
    List (SliceHdr × List α) → Store α × List SliceHdr
  | [] => (s, [])
  | p :: rest =>
    ((Store.assignAll g (s.append g ⟨p.1.arr, p.1.off, 0, p.1.cap⟩ p.2).1 rest).1,
      (s.append g ⟨p.1.arr, p.1.off, 0, p.1.cap⟩ p.2).2
        :: (Store.assignAll g (s.append g ⟨p.1.arr, p.1.off, 0, p.1.cap⟩ p.2).1 rest).2)

/-! ## Pool -/

/-- Modelled from the spec: `sync.Pool` belongs to the Go standard library and
is not part of this package's source. Following the spec, it is a free list of
released items with a constructor `New` used when the list is empty. -/
structure SyncPool (α : Type) where
  New : Unit → α
  free : List α

/-- Modelled from the spec: `(*sync.Pool).Get`, absent from the source. It
removes an arbitrary item of the free list (`pick` selects which) and returns
it; with an empty free list it returns `New()`. -/
def SyncPool.Get {α : Type} (p : SyncPool α) (pick : Nat) : α × SyncPool α :=
  match p.free with
  | [] => (p.New (), p)
  | x :: xs =>
    ((x :: xs).get ⟨pick % (x :: xs).length, Nat.mod_lt _ (Nat.succ_pos _)⟩,
      { p with free := (x :: xs).eraseIdx (pick % (x :: xs).length) })

/-- Modelled from the spec: `(*sync.Pool).Put`, absent from the source. It
adds the item to the free list. -/
def SyncPool.Put {α : Type} (p : SyncPool α) (x : α) : SyncPool α :=
  { p with free := x :: p.free }

/-- The value `new(Token)`: every field has its zero value. -/
def newToken : Token :=
  { Name := { Space := Slice.nil, Local := Slice.nil, Full := Slice.nil }
    Attrs := Slice.nil
    Data := Slice.nil
    SelfClosing := false }

/-- Package variable `var pool = sync.Pool{New: func() any { return new(Token) }}`,
in its initial state. -/
def pool : SyncPool Token := { New := fun _ => newToken, free := [] }

/-- The package variable `pool` when its free list holds `free`. -/
def poolWith (free : List Token) : SyncPool Token := { pool with free := free }

/-- Function `func GetToken() *Token`, on the current state of `pool`; returns the
token and the next state. -/
def GetToken (st : SyncPool Token) (pick : Nat) : Token × SyncPool Token :=
  st.Get pick

/-- Function `func PutToken(t *Token)`, on the current state of `pool`. -/
def PutToken (st : SyncPool Token) (t : Token) : SyncPool Token :=
  st.Put t

/-- A call made on the pool by some client. -/
inductive PoolCall where
  | get (pick : Nat)
  | put (t : Token)

/-- State of the pool after a sequence of calls. -/
def runCalls (st : SyncPool Token) : List PoolCall → SyncPool Token
  | [] => st
  | .get pick :: cs => runCalls (GetToken st pick).2 cs
  | .put t :: cs => runCalls (PutToken st t) cs

/-- The tokens released by a sequence of calls. -/
def released : List PoolCall → List Token
  | [] => []
  | .get _ :: cs => released cs
  | .put t :: cs => t :: released cs

/-- The conversion `[]byte(s)` of a string literal. -/
def bytes (s : String) : List Byte := s.toUTF8.data.toList

/-- A token whose only populated field is `Name.Full`, in a buffer allocated
for exactly these bytes. -/
def tokenNamed (full : List Byte) : Token :=
  { newToken with Name.Full := Slice.ofList full }

/-- A fully populated token: the start tag `<a:foo id="1">` with payload
`Title`. -/
def populatedToken : Token :=
  { Name :=
      { Space := Slice.ofList (bytes "a")
        Local := Slice.ofList (bytes "foo")
        Full := Slice.ofList (bytes "a:foo") }
    Attrs := Slice.ofList
      [{ Name :=
           { Space := Slice.nil
             Local := Slice.ofList (bytes "id")
             Full := Slice.ofList (bytes "id") }
         Value := Slice.ofList (bytes "1") }]
    Data := Slice.ofList (bytes "Title")
    SelfClosing := false }

/-- A token with the three parts of its name populated. -/
def tokenQualified (space loc full : List Byte) : Token :=
  { newToken with
    Name := { Space := Slice.ofList space, Local := Slice.ofList loc, Full := Slice.ofList full } }

/-- An end tag `/x` held in a reused buffer of capacity 4 whose spare bytes
are left over from an earlier name, on a token whose other fields are
populated and whose `SelfClosing` is true. -/
def reusedEndToken : Token :=
  { Name :=
      { Space := Slice.ofList (bytes "ns")
        Local := Slice.ofList (bytes "x")
        Full := ⟨bytes "/xyz", 2, by decide⟩ }
    Attrs := populatedToken.Attrs
    Data := Slice.ofList (bytes "Title")
    SelfClosing := true }

/-! ## Memories and tokens used as examples -/

/-- Memory holding the given byte arrays and arrays of `Attr`, numbered in
order from 0. -/
def heapOf (bs : List (List Byte)) (as : List (List AttrHdr)) : Heap :=
  { bytes := { cell := fun a i => (bs.getD a []).getD i 0, next := bs.length }
    attrs := { cell := fun a i => (as.getD a []).getD i default, next := as.length } }

/-- A growth policy for `append`: double the capacity, or take what is
needed when that is more. -/
def doubling (oldCap needed : Nat) : Nat := max needed (2 * oldCap)

/-- The nil slice. -/
def SliceHdr.nil : SliceHdr := ⟨0, 0, 0, 0⟩

/-- Memory for a token lexed in place: array 0 is the scanner's buffer
`a:foo`, arrays 1 to 3 hold the names `xs`, `el` and `xs:el` of another
token. -/
def lexedHeap : Heap := heapOf [bytes "a:foo", bytes "xs", bytes "el", bytes "xs:el"] []

/-- A token whose three names are slices of the one buffer `a:foo`:
`Space = buf[0:1]`, `Local = buf[2:5]`, `Full = buf[0:5]`. -/
def lexedToken : TokenHdr :=
  { Name := { Space := ⟨0, 0, 1, 5⟩, Local := ⟨0, 2, 3, 3⟩, Full := ⟨0, 0, 5, 5⟩ }
    Attrs := SliceHdr.nil
    Data := SliceHdr.nil
    SelfClosing := false }

/-- A token named `xs:el`, each name in an array of its own. -/
def otherToken : TokenHdr :=
  { Name := { Space := ⟨1, 0, 2, 2⟩, Local := ⟨2, 0, 2, 2⟩, Full := ⟨3, 0, 5, 5⟩ }
    Attrs := SliceHdr.nil
    Data := SliceHdr.nil
    SelfClosing := false }

/-- Memory for a pooled token: arrays 0 to 3 are the token's own buffers,
still holding the longer names and payload of an earlier use; arrays 4 to 9
hold the names, payload and attribute of the start tag `<xs:el id="1">Hi`,
whose one `Attr` is in array 0 of the attribute storage; array 10 holds a
16-byte name. -/
def pooledHeap : Heap :=
  heapOf
    [bytes "oldns", bytes "oldlocal", bytes "oldns:oldlocal", bytes "old payload",
      bytes "xs", bytes "el", bytes "xs:el", bytes "Hi", bytes "id", bytes "1",
      bytes "first:token-name"]
    [[{ Name := { Space := SliceHdr.nil, Local := ⟨8, 0, 2, 2⟩, Full := ⟨8, 0, 2, 2⟩ }
        Value := ⟨9, 0, 1, 1⟩ }]]

/-- A pooled token, each buffer an array of its own, with the contents of an
earlier use and `SelfClosing` true. -/
def pooledToken : TokenHdr :=
  { Name := { Space := ⟨0, 0, 5, 5⟩, Local := ⟨1, 0, 8, 8⟩, Full := ⟨2, 0, 14, 14⟩ }
    Attrs := SliceHdr.nil
    Data := ⟨3, 0, 11, 11⟩
    SelfClosing := true }

/-- The start tag `<xs:el id="1">Hi` in `pooledHeap`. -/
def startToken : TokenHdr :=
  { Name := { Space := ⟨4, 0, 2, 2⟩, Local := ⟨5, 0, 2, 2⟩, Full := ⟨6, 0, 5, 5⟩ }
    Attrs := ⟨0, 0, 1, 1⟩
    Data := ⟨7, 0, 2, 2⟩
    SelfClosing := false }

/-- Memory with the arrays `ddd`, `new` and `zzz`. -/
def aliasedHeap : Heap := heapOf [bytes "ddd", bytes "new", bytes "zzz"] []

/-- A destination whose `Data` is array 0. -/
def dataToken : TokenHdr :=
  { Name := { Space := SliceHdr.nil, Local := SliceHdr.nil, Full := SliceHdr.nil }
    Attrs := SliceHdr.nil
    Data := ⟨0, 0, 3, 3⟩
    SelfClosing := false }

/-- A source whose `Name.Space` views array 0, the destination's `Data`, and
whose `Data` is array 1. -/
def viewingToken : TokenHdr :=
  { Name := { Space := ⟨0, 0, 3, 3⟩, Local := SliceHdr.nil, Full := SliceHdr.nil }
    Attrs := SliceHdr.nil
    Data := ⟨1, 0, 3, 3⟩
    SelfClosing := false }

theorem Slice.toList_length {α : Type} (s : Slice α) : s.toList.length = s.len := by
  unfold Slice.toList
  rw [List.length_take]
  exact Nat.min_eq_left s.len_le

theorem Slice.index_zero_eq {α : Type} (s : Slice α) (h : 0 < s.len) :
    ∃ a, s.index 0 = .ok a ∧ s.toList.head? = some a := by
  obtain ⟨arr, len, hle⟩ := s
  cases arr with
  | nil => simp at hle; simp at h; omega
  | cons a rest =>
    refine ⟨a, ?_, ?_⟩
    · simp only [Slice.index]
      simp at h
      simp [h]
    · simp at h
      obtain ⟨k, rfl⟩ : ∃ k, len = k + 1 := ⟨len - 1, by omega⟩
      simp [Slice.toList]

theorem Slice.reslice_tail {α : Type} (s : Slice α) (h : 0 < s.len) :
    ∃ r, s.reslice 1 s.len = .ok r ∧ r.toList = s.toList.tail := by
  have hc : 1 ≤ s.len ∧ s.len ≤ s.cap := ⟨h, s.len_le⟩
  refine ⟨_, dif_pos hc, ?_⟩
  simp only [Slice.toList]
  rw [← List.drop_one, List.drop_take]

theorem Token.IsEndElement_eq (t : Token) :
    t.IsEndElement = .ok (t.Name.Full.toList.head? == some slash) := by
  unfold Token.IsEndElement
  by_cases h : t.Name.Full.len > 0
  · obtain ⟨a, ha, hh⟩ := Slice.index_zero_eq t.Name.Full h
    rw [if_pos h, ha, hh]
    by_cases hb : a = slash <;> simp [hb, bind, Except.bind, pure, Except.pure]
  · have h0 : t.Name.Full.toList = [] := by
      apply List.eq_nil_of_length_eq_zero
      rw [Slice.toList_length]; omega
    rw [if_neg h, h0]
    simp [bind, Except.bind, pure, Except.pure]

theorem Token.IsEndElementOf_eq (t t2 : Token) :
    t.IsEndElementOf t2 = .ok (t.Name.Full.toList.head? == some slash
      && decide (t.Name.Full.toList.tail = t2.Name.Full.toList)) := by
  unfold Token.IsEndElementOf
  rw [Token.IsEndElement_eq]
  by_cases hh : t.Name.Full.toList.head? = some slash
  · have hpos : 0 < t.Name.Full.len := by
      rw [← Slice.toList_length]
      cases hl : t.Name.Full.toList with
      | nil => rw [hl] at hh; simp at hh
      | cons a l => simp
    obtain ⟨r, hr, hrl⟩ := Slice.reslice_tail t.Name.Full hpos
    simp only [hh, bind, Except.bind, hr, Slice.string, hrl, pure, Except.pure]
    by_cases he : t.Name.Full.toList.tail = t2.Name.Full.toList <;> simp [he]
  · have : (t.Name.Full.toList.head? == some slash) = false := by simpa using hh
    simp [this, bind, Except.bind, pure, Except.pure]

/-! ## Truncation -/

theorem Slice.reslice_zero_eq {α : Type} (s : Slice α) :
    s.reslice 0 0 = .ok ⟨s.arr, 0, Nat.zero_le _⟩ := by
  have hc : 0 ≤ 0 ∧ 0 ≤ s.cap := ⟨Nat.le_refl 0, Nat.zero_le _⟩
  unfold Slice.reslice
  rw [dif_pos hc]
  rfl

/-! ## Properties of shared storage -/

theorem Store.read_length {α : Type} (s : Store α) (r : SliceHdr) :
    (s.read r).length = r.len := by
  simp [Store.read]

theorem Store.read_write_frame {α : Type} [Inhabited α] (s : Store α) (a pos : Nat)
    (xs : List α) (q : SliceHdr)
    (h : q.arr ≠ a ∨ q.len = 0 ∨ xs.length = 0 ∨ q.off + q.len ≤ pos
      ∨ pos + xs.length ≤ q.off) :
    (s.write a pos xs).read q = s.read q := by
  unfold Store.read Store.write
  apply List.map_congr_left
  intro k hk
  have hk2 : k < q.len := List.mem_range.mp hk
  have hn : ¬ (q.arr = a ∧ pos ≤ q.off + k ∧ q.off + k < pos + xs.length) := by
    intro hc
    omega
  simp only [hn, if_false]

theorem Store.read_write_same {α : Type} [Inhabited α] (s : Store α) (a pos : Nat)
    (xs zs : List α) (q : SliceHdr) (ha : q.arr = a) (hp : q.off = pos)
    (hl : q.len = xs.length) :
    (s.write a pos (xs ++ zs)).read q = xs := by
  apply List.ext_getElem
  · rw [Store.read_length, hl]
  · intro k h1 h2
    have hc : q.arr = a ∧ pos ≤ q.off + k ∧ q.off + k < pos + (xs ++ zs).length := by
      refine ⟨ha, by omega, ?_⟩
      rw [List.length_append]
      omega
    simp only [Store.read, Store.write, List.getElem_map, List.getElem_range, hc, and_self,
      if_true]
    have hk : q.off + k - pos = k := by omega
    rw [hk, List.getD_eq_getElem?_getD, List.getElem?_append_left h2,
      List.getElem?_eq_getElem h2]
    rfl

theorem Store.Live_mono {α : Type} (s s' : Store α) (q : SliceHdr) (h : s.Live q)
    (hn : s.next ≤ s'.next) : s'.Live q := by
  unfold Store.Live at *
  omega

theorem SliceHdr.truncate_eq (r : SliceHdr) :
    r.reslice 0 0 = .ok ⟨r.arr, r.off, 0, r.cap⟩ := by
  simp [SliceHdr.reslice]

/-- The statement `x = append(x[:0], xs...)`: afterwards `x` holds `xs`, what
lies outside the storage of the old `x` is untouched, and the new `x` shares
no storage with what the old one was apart from. -/
theorem Store.assign_spec {α : Type} [Inhabited α] (g : Nat → Nat → Nat) (s : Store α)
    (r : SliceHdr) (xs : List α) (hr : r.cap = 0 ∨ r.arr < s.next) :
    (s.append g ⟨r.arr, r.off, 0, r.cap⟩ xs).1.read (s.append g ⟨r.arr, r.off, 0, r.cap⟩ xs).2
        = xs
    ∧ (s.append g ⟨r.arr, r.off, 0, r.cap⟩ xs).1.Live
        (s.append g ⟨r.arr, r.off, 0, r.cap⟩ xs).2
    ∧ s.next ≤ (s.append g ⟨r.arr, r.off, 0, r.cap⟩ xs).1.next
    ∧ (∀ q, s.Live q → q.Clear r →
        (s.append g ⟨r.arr, r.off, 0, r.cap⟩ xs).1.read q = s.read q
        ∧ q.Clear (s.append g ⟨r.arr, r.off, 0, r.cap⟩ xs).2)
    ∧ (∀ p, s.Live p → p.Apart r →
        p.Apart (s.append g ⟨r.arr, r.off, 0, r.cap⟩ xs).2
        ∧ (s.append g ⟨r.arr, r.off, 0, r.cap⟩ xs).2.Apart p) := by
  unfold Store.append
  by_cases hc : 0 + xs.length ≤ r.cap
  · simp only [hc, if_true]
    refine ⟨?_, ?_, Nat.le_refl _, ?_, ?_⟩
    · have := Store.read_write_same s r.arr (r.off + 0) xs [] ⟨r.arr, r.off, 0 + xs.length, r.cap⟩
        rfl rfl (by simp)
      simpa using this
    · unfold Store.Live
      simp only [Store.write]
      omega
    · intro q hq hqr
      unfold Store.Live at hq
      unfold SliceHdr.Clear at hqr ⊢
      refine ⟨Store.read_write_frame _ _ _ _ _ (by omega), by simpa using hqr⟩
    · intro p hp hpr
      unfold SliceHdr.Apart at hpr ⊢
      simp only
      omega
  · simp only [hc, if_false]
    refine ⟨?_, ?_, Nat.le_succ _, ?_, ?_⟩
    · have hnil : s.read ⟨r.arr, r.off, 0, r.cap⟩ = [] := by simp [Store.read]
      rw [hnil, List.nil_append]
      exact Store.read_write_same s s.next 0 xs _ _ rfl rfl (by simp)
    · unfold Store.Live
      simp only [Store.write]
      omega
    · intro q hq hqr
      unfold Store.Live at hq
      unfold SliceHdr.Clear
      refine ⟨Store.read_write_frame _ _ _ _ _ (by omega), ?_⟩
      simp only
      omega
    · intro p hp hpr
      unfold Store.Live at hp
      unfold SliceHdr.Apart
      simp only
      omega


theorem SliceHdr.Apart_symm {p r : SliceHdr} (h : p.Apart r) : r.Apart p := by
  unfold SliceHdr.Apart at *
  omega

theorem SliceHdr.Apart_Clear {p r : SliceHdr} (h : p.Apart r) (hl : p.len ≤ p.cap) :
    p.Clear r := by
  unfold SliceHdr.Apart at h
  unfold SliceHdr.Clear
  omega

/-- What a run of assignments leaves alone: storage only grows, the new
headers are live, and a slice whose elements lie outside all the assigned
buffers keeps its contents and lies outside the new buffers too. -/
theorem Store.assignAll_frame {α : Type} [Inhabited α] (g : Nat → Nat → Nat)
    (ps : List (SliceHdr × List α)) :
    ∀ s : Store α, (∀ p ∈ ps, p.1.cap = 0 ∨ p.1.arr < s.next) →
      s.next ≤ (s.assignAll g ps).1.next
      ∧ (∀ r ∈ (s.assignAll g ps).2, (s.assignAll g ps).1.Live r)
      ∧ (∀ x, s.Live x → (∀ p ∈ ps, x.Clear p.1) →
          (s.assignAll g ps).1.read x = s.read x
          ∧ ∀ r ∈ (s.assignAll g ps).2, x.Clear r) := by
  induction ps with
  | nil =>
    intro s _
    exact ⟨Nat.le_refl _, by simp [Store.assignAll], fun x _ _ => ⟨rfl, by simp [Store.assignAll]⟩⟩
  | cons p rest ih =>
    intro s hl
    obtain ⟨_, hA2, hA3, hA4, _⟩ :=
      Store.assign_spec g s p.1 p.2 (hl p (List.mem_cons_self _ _))
    have hl' : ∀ q ∈ rest, q.1.cap = 0 ∨ q.1.arr < (s.append g ⟨p.1.arr, p.1.off, 0, p.1.cap⟩ p.2).1.next := by
      intro q hq
      have := hl q (List.mem_cons_of_mem _ hq)
      omega
    obtain ⟨hB1, hB2, hB3⟩ := ih _ hl'
    simp only [Store.assignAll]
    refine ⟨Nat.le_trans hA3 hB1, ?_, ?_⟩
    · intro r hr
      rcases List.mem_cons.mp hr with h | h
      · rw [h]
        exact Store.Live_mono _ _ _ hA2 hB1
      · exact hB2 r h
    · intro x hx hc
      obtain ⟨h1, h2⟩ := hA4 x hx (hc p (List.mem_cons_self _ _))
      obtain ⟨h3, h4⟩ := hB3 x (Store.Live_mono _ _ _ hx hA3)
        (fun q hq => hc q (List.mem_cons_of_mem _ hq))
      refine ⟨h3.trans h1, ?_⟩
      intro r hr
      rcases List.mem_cons.mp hr with h | h
      · rw [h]; exact h2
      · exact h4 r h

/-- A run of assignments to buffers that share no storage: each new buffer
holds the elements it was assigned, and the new buffers share no storage. -/
theorem Store.assignAll_spec {α : Type} [Inhabited α] (g : Nat → Nat → Nat)
    (ps : List (SliceHdr × List α)) :
    ∀ s : Store α, (∀ p ∈ ps, p.1.cap = 0 ∨ p.1.arr < s.next) →
      (ps.map (·.1)).Pairwise SliceHdr.Apart →
      List.Forall₂ (fun r p => (s.assignAll g ps).1.read r = p.2) (s.assignAll g ps).2 ps
      ∧ (s.assignAll g ps).2.Pairwise SliceHdr.Apart
      ∧ (∀ x, s.Live x → (∀ p ∈ ps, x.Apart p.1) →
          ∀ r ∈ (s.assignAll g ps).2, x.Apart r) := by
  induction ps with
  | nil =>
    intro s _ _
    simp [Store.assignAll]
  | cons p rest ih =>
    intro s hl hp
    obtain ⟨hA1, hA2, hA3, hA4, hA5⟩ :=
      Store.assign_spec g s p.1 p.2 (hl p (List.mem_cons_self _ _))
    have hl' : ∀ q ∈ rest, q.1.cap = 0 ∨ q.1.arr < (s.append g ⟨p.1.arr, p.1.off, 0, p.1.cap⟩ p.2).1.next := by
      intro q hq
      have := hl q (List.mem_cons_of_mem _ hq)
      omega
    rw [List.map_cons, List.pairwise_cons] at hp
    obtain ⟨hB1, hB2, hB3⟩ := ih _ hl' hp.2
    obtain ⟨_, _, hF⟩ := Store.assignAll_frame g rest _ hl'
    -- the head's new buffer is apart from the buffers still to be assigned
    have hhead : ∀ q ∈ rest,
        (s.append g ⟨p.1.arr, p.1.off, 0, p.1.cap⟩ p.2).2.Apart q.1 := by
      intro q hq
      have hq1 : p.1.Apart q.1 := hp.1 q.1 (List.mem_map_of_mem _ hq)
      by_cases hc : q.1.cap = 0
      · unfold SliceHdr.Apart; omega
      · have hlive : s.Live ⟨q.1.arr, q.1.off, 0, q.1.cap⟩ := by
          have := hl q (List.mem_cons_of_mem _ hq)
          unfold Store.Live; simp only; omega
        have hap : (⟨q.1.arr, q.1.off, 0, q.1.cap⟩ : SliceHdr).Apart p.1 := by
          have := SliceHdr.Apart_symm hq1
          unfold SliceHdr.Apart at this ⊢
          simpa using this
        have := (hA5 _ hlive hap).2
        unfold SliceHdr.Apart at this ⊢
        simpa using this
    simp only [Store.assignAll]
    refine ⟨List.Forall₂.cons ?_ hB1, ?_, ?_⟩
    · have hclear : ∀ q ∈ rest,
          (s.append g ⟨p.1.arr, p.1.off, 0, p.1.cap⟩ p.2).2.Clear q.1 :=
        fun q hq => SliceHdr.Apart_Clear (hhead q hq) hA2.1
      rw [(hF _ hA2 hclear).1]
      exact hA1
    · rw [List.pairwise_cons]
      exact ⟨fun r hr => hB3 _ hA2 hhead r hr, hB2⟩
    · intro x hx hc r hr
      rcases List.mem_cons.mp hr with h | h
      · rw [h]
        exact (hA5 x hx (hc p (List.mem_cons_self _ _))).1
      · exact hB3 x (Store.Live_mono _ _ _ hx hA3)
          (fun q hq => hc q (List.mem_cons_of_mem _ hq)) r h


/-! ## Properties of the snapshot -/

/-- The five assignments of `Copy`, unfolded: each reads its source buffer
from the storage the previous assignments left. -/
theorem TokenHdr.Copy_eq (g : Nat → Nat → Nat) (h : Heap) (t src : TokenHdr) :
    ∃ A1 A2 A3 A4 : Store Byte × SliceHdr,
      A1 = h.bytes.append g ⟨t.Name.Space.arr, t.Name.Space.off, 0, t.Name.Space.cap⟩
        (h.bytes.read src.Name.Space)
      ∧ A2 = A1.1.append g ⟨t.Name.Local.arr, t.Name.Local.off, 0, t.Name.Local.cap⟩
        (A1.1.read src.Name.Local)
      ∧ A3 = A2.1.append g ⟨t.Name.Full.arr, t.Name.Full.off, 0, t.Name.Full.cap⟩
        (A2.1.read src.Name.Full)
      ∧ A4 = A3.1.append g ⟨t.Data.arr, t.Data.off, 0, t.Data.cap⟩ (A3.1.read src.Data)
      ∧ t.Copy g h src = .ok
          (⟨A4.1, (h.attrs.append g ⟨t.Attrs.arr, t.Attrs.off, 0, t.Attrs.cap⟩
              (h.attrs.read src.Attrs)).1⟩,
            { Name := ⟨A1.2, A2.2, A3.2⟩
              Attrs := (h.attrs.append g ⟨t.Attrs.arr, t.Attrs.off, 0, t.Attrs.cap⟩
                (h.attrs.read src.Attrs)).2
              Data := A4.2
              SelfClosing := src.SelfClosing }) := by
  refine ⟨_, _, _, _, rfl, rfl, rfl, rfl, ?_⟩
  simp only [TokenHdr.Copy, SliceHdr.truncate_eq, bind, Except.bind, pure, Except.pure]

/-- When the buffers of `t` do not alias those of `src`, every assignment of
`Copy` receives the bytes `src` held before the call. -/
theorem TokenHdr.Copy_assignAll (g : Nat → Nat → Nat) (h : Heap) (t src : TokenHdr)
    (hd : h.Sound t) (hs : h.Sound src) (hc : src.ClearOf t) :
    t.Copy g h src = .ok
      (⟨(h.bytes.assignAll g
            [(t.Name.Space, h.bytes.read src.Name.Space),
              (t.Name.Local, h.bytes.read src.Name.Local),
              (t.Name.Full, h.bytes.read src.Name.Full),
              (t.Data, h.bytes.read src.Data)]).1,
          (h.attrs.assignAll g [(t.Attrs, h.attrs.read src.Attrs)]).1⟩,
        { Name :=
            ⟨(h.bytes.assignAll g
                [(t.Name.Space, h.bytes.read src.Name.Space),
                  (t.Name.Local, h.bytes.read src.Name.Local),
                  (t.Name.Full, h.bytes.read src.Name.Full),
                  (t.Data, h.bytes.read src.Data)]).2.getD 0 default,
              (h.bytes.assignAll g
                [(t.Name.Space, h.bytes.read src.Name.Space),
                  (t.Name.Local, h.bytes.read src.Name.Local),
                  (t.Name.Full, h.bytes.read src.Name.Full),
                  (t.Data, h.bytes.read src.Data)]).2.getD 1 default,
              (h.bytes.assignAll g
                [(t.Name.Space, h.bytes.read src.Name.Space),
                  (t.Name.Local, h.bytes.read src.Name.Local),
                  (t.Name.Full, h.bytes.read src.Name.Full),
                  (t.Data, h.bytes.read src.Data)]).2.getD 2 default⟩
          Attrs := (h.attrs.assignAll g [(t.Attrs, h.attrs.read src.Attrs)]).2.getD 0 default
          Data := (h.bytes.assignAll g
                [(t.Name.Space, h.bytes.read src.Name.Space),
                  (t.Name.Local, h.bytes.read src.Name.Local),
                  (t.Name.Full, h.bytes.read src.Name.Full),
                  (t.Data, h.bytes.read src.Data)]).2.getD 3 default
          SelfClosing := src.SelfClosing }) := by
  obtain ⟨A1, A2, A3, A4, e1, e2, e3, e4, hcopy⟩ := TokenHdr.Copy_eq g h t src
  simp only [Heap.Sound, TokenHdr.bufs, List.mem_cons, List.mem_singleton, forall_eq_or_imp,
    forall_eq, List.not_mem_nil, false_implies, implies_true, and_true, Store.Live] at hd hs
  simp only [TokenHdr.ClearOf, TokenHdr.bufs, List.mem_cons, List.mem_singleton,
    forall_eq_or_imp, forall_eq, List.not_mem_nil, false_implies, implies_true, and_true] at hc
  obtain ⟨⟨hd1, hd2, hd3, hd4⟩, _⟩ := hd
  obtain ⟨⟨hs1, hs2, hs3, hs4⟩, _⟩ := hs
  obtain ⟨⟨⟨c11, c12, c13, c14⟩, ⟨c21, c22, c23, c24⟩, ⟨c31, c32, c33, c34⟩,
    ⟨c41, c42, c43, c44⟩⟩, _⟩ := hc
  -- the source bytes read by the later assignments are those of the start
  have r2 : A1.1.read src.Name.Local = h.bytes.read src.Name.Local := by
    have := (Store.assignAll_frame g [(t.Name.Space, h.bytes.read src.Name.Space)] h.bytes
      (by simp; omega)).2.2 src.Name.Local (by unfold Store.Live; omega) (by simpa using c21)
    rw [e1]; exact this.1
  rw [r2] at e2
  have r3 : A2.1.read src.Name.Full = h.bytes.read src.Name.Full := by
    have := (Store.assignAll_frame g [(t.Name.Space, h.bytes.read src.Name.Space),
      (t.Name.Local, h.bytes.read src.Name.Local)] h.bytes
      (by simp; omega)).2.2 src.Name.Full (by unfold Store.Live; omega)
      (by simpa using ⟨c31, c32⟩)
    rw [e2, e1]; exact this.1
  rw [r3] at e3
  have r4 : A3.1.read src.Data = h.bytes.read src.Data := by
    have := (Store.assignAll_frame g [(t.Name.Space, h.bytes.read src.Name.Space),
      (t.Name.Local, h.bytes.read src.Name.Local),
      (t.Name.Full, h.bytes.read src.Name.Full)] h.bytes
      (by simp; omega)).2.2 src.Data (by unfold Store.Live; omega)
      (by simpa using ⟨c41, c42, c43⟩)
    rw [e3, e2, e1]; exact this.1
  rw [r4] at e4
  rw [hcopy, e4, e3, e2, e1]
  rfl


theorem Heap.Sound_mono (h h' : Heap) (q : TokenHdr) (hq : h.Sound q)
    (hb : h.bytes.next ≤ h'.bytes.next) (ha : h.attrs.next ≤ h'.attrs.next) : h'.Sound q :=
  ⟨fun r hr => Store.Live_mono _ _ _ (hq.1 r hr) hb, Store.Live_mono _ _ _ hq.2 ha⟩

/-- `Copy` into a destination whose buffers share no storage with one another
nor with the source: the destination then shows the field values of the
source, its buffers still share no storage, and every token whose buffers the
destination did not alias is unchanged and still not aliased. -/
theorem TokenHdr.Copy_spec (g : Nat → Nat → Nat) (h : Heap) (dst src : TokenHdr)
    (hd : h.Sound dst) (hs : h.Sound src) (hsep : dst.Separate) (hc : src.ClearOf dst) :
    ∃ h' c, dst.Copy g h src = .ok (h', c)
      ∧ h'.view c = h.view src
      ∧ h'.Sound c ∧ c.Separate
      ∧ h.bytes.next ≤ h'.bytes.next ∧ h.attrs.next ≤ h'.attrs.next
      ∧ ∀ q, h.Sound q → q.ClearOf dst → h'.view q = h.view q ∧ q.ClearOf c := by
  have e := TokenHdr.Copy_assignAll g h dst src hd hs hc
  have hlive : ∀ p ∈ [(dst.Name.Space, h.bytes.read src.Name.Space),
      (dst.Name.Local, h.bytes.read src.Name.Local),
      (dst.Name.Full, h.bytes.read src.Name.Full),
      (dst.Data, h.bytes.read src.Data)], p.1.cap = 0 ∨ p.1.arr < h.bytes.next := by
    intro p hp
    have : p.1 ∈ dst.bufs := by
      simp only [List.mem_cons, List.mem_singleton, List.not_mem_nil, or_false] at hp
      rcases hp with rfl | rfl | rfl | rfl <;> simp [TokenHdr.bufs]
    exact (hd.1 _ this).2
  have hlivea : ∀ p ∈ [(dst.Attrs, h.attrs.read src.Attrs)],
      p.1.cap = 0 ∨ p.1.arr < h.attrs.next := by
    intro p hp
    simp only [List.mem_singleton] at hp
    rw [hp]
    exact hd.2.2
  have fr := Store.assignAll_frame g _ h.bytes hlive
  have sp := Store.assignAll_spec g _ h.bytes hlive hsep
  have fra := Store.assignAll_frame g _ h.attrs hlivea
  have spa := Store.assignAll_spec g _ h.attrs hlivea (by simp)
  obtain ⟨r1, r2, r3, r4, hr⟩ : ∃ r1 r2 r3 r4, (h.bytes.assignAll g
      [(dst.Name.Space, h.bytes.read src.Name.Space),
        (dst.Name.Local, h.bytes.read src.Name.Local),
        (dst.Name.Full, h.bytes.read src.Name.Full),
        (dst.Data, h.bytes.read src.Data)]).2 = [r1, r2, r3, r4] := ⟨_, _, _, _, rfl⟩
  obtain ⟨ra, hra⟩ : ∃ ra, (h.attrs.assignAll g [(dst.Attrs, h.attrs.read src.Attrs)]).2
      = [ra] := ⟨_, rfl⟩
  rw [hr] at e fr sp
  rw [hra] at e fra spa
  simp only [List.getD_cons_zero, List.getD_cons_succ] at e
  simp only [List.forall₂_cons, List.forall₂_nil_left_iff, and_true, List.mem_cons,
    List.mem_singleton, List.not_mem_nil, or_false, forall_eq_or_imp, forall_eq] at fr sp fra spa
  obtain ⟨fn, ⟨l1, l2, l3, l4⟩, ff⟩ := fr
  obtain ⟨⟨v1, v2, v3, v4⟩, hpw, _⟩ := sp
  obtain ⟨fna, la, ffa⟩ := fra
  obtain ⟨va, _, _⟩ := spa
  refine ⟨_, _, e, ?_, ?_, ?_, fn, fna, ?_⟩
  · simp only [Heap.view, v1, v2, v3, v4, va]
  · refine ⟨?_, la⟩
    intro r hr
    simp only [TokenHdr.bufs, List.mem_cons, List.mem_singleton, List.not_mem_nil,
      or_false] at hr
    rcases hr with rfl | rfl | rfl | rfl <;> assumption
  · exact hpw
  · intro q hq hqc
    have hq1 : ∀ x ∈ q.bufs, (h.bytes.assignAll g
        [(dst.Name.Space, h.bytes.read src.Name.Space),
          (dst.Name.Local, h.bytes.read src.Name.Local),
          (dst.Name.Full, h.bytes.read src.Name.Full),
          (dst.Data, h.bytes.read src.Data)]).1.read x = h.bytes.read x
        ∧ x.Clear r1 ∧ x.Clear r2 ∧ x.Clear r3 ∧ x.Clear r4 := by
      intro x hx
      have hcx := hqc.1 x hx
      simp only [TokenHdr.bufs, List.mem_cons, List.mem_singleton, List.not_mem_nil,
        or_false, forall_eq_or_imp, forall_eq] at hcx
      exact ff x (hq.1 x hx) hcx
    have hq2 := ffa q.Attrs hq.2 hqc.2
    have b1 := hq1 q.Name.Space (by simp [TokenHdr.bufs])
    have b2 := hq1 q.Name.Local (by simp [TokenHdr.bufs])
    have b3 := hq1 q.Name.Full (by simp [TokenHdr.bufs])
    have b4 := hq1 q.Data (by simp [TokenHdr.bufs])
    refine ⟨?_, ?_, hq2.2⟩
    · simp only [Heap.view, b1.1, b2.1, b3.1, b4.1, hq2.1]
    · intro x hx r hr
      simp only [TokenHdr.bufs, List.mem_cons, List.mem_singleton, List.not_mem_nil,
        or_false] at hr
      have := hq1 x hx
      rcases hr with rfl | rfl | rfl | rfl
      · exact this.2.1
      · exact this.2.2.1
      · exact this.2.2.2.1
      · exact this.2.2.2.2


/-! ## Repeating a run of assignments -/

/-- Cell by cell, the statement `x = append(x[:0], xs...)`: the cells of the
new `x` hold `xs`, an allocated cell outside the new `x` is unchanged, and
assigning `xs` to the new `x` again writes in place. -/
theorem Store.assign_cell {α : Type} [Inhabited α] (g : Nat → Nat → Nat) (s : Store α)
    (r : SliceHdr) (xs : List α) :
    ((s.append g ⟨r.arr, r.off, 0, r.cap⟩ xs).2.len = xs.length
      ∧ xs.length ≤ (s.append g ⟨r.arr, r.off, 0, r.cap⟩ xs).2.cap)
    ∧ (∀ b i, b = (s.append g ⟨r.arr, r.off, 0, r.cap⟩ xs).2.arr →
        (s.append g ⟨r.arr, r.off, 0, r.cap⟩ xs).2.off ≤ i →
        i < (s.append g ⟨r.arr, r.off, 0, r.cap⟩ xs).2.off + xs.length →
        (s.append g ⟨r.arr, r.off, 0, r.cap⟩ xs).1.cell b i
          = xs.getD (i - (s.append g ⟨r.arr, r.off, 0, r.cap⟩ xs).2.off) default)
    ∧ (∀ b i, b < s.next →
        ¬ (b = (s.append g ⟨r.arr, r.off, 0, r.cap⟩ xs).2.arr
          ∧ (s.append g ⟨r.arr, r.off, 0, r.cap⟩ xs).2.off ≤ i
          ∧ i < (s.append g ⟨r.arr, r.off, 0, r.cap⟩ xs).2.off + xs.length) →
        (s.append g ⟨r.arr, r.off, 0, r.cap⟩ xs).1.cell b i = s.cell b i) := by
  unfold Store.append
  by_cases hc : 0 + xs.length ≤ r.cap
  · simp only [hc, if_true]
    refine ⟨⟨by omega, by omega⟩, ?_, ?_⟩
    · intro b i hb h1 h2
      have hcov : b = r.arr ∧ r.off + 0 ≤ i ∧ i < r.off + 0 + xs.length := by omega
      simp only [Store.write, hcov, and_self, if_true]
      rfl
    · intro b i _ hn
      have hcov : ¬ (b = r.arr ∧ r.off + 0 ≤ i ∧ i < r.off + 0 + xs.length) := by omega
      simp only [Store.write, hcov, if_false]
  · simp only [hc, if_false]
    refine ⟨⟨by omega, by omega⟩, ?_, ?_⟩
    · intro b i hb h1 h2
      have hnil : s.read ⟨r.arr, r.off, 0, r.cap⟩ = [] := by simp [Store.read]
      have hi : i < xs.length := by omega
      have hcov : b = s.next ∧ 0 ≤ i ∧ i < 0 + ([] ++ xs ++ List.replicate
          (max (0 + xs.length) (g r.cap (0 + xs.length)) - (0 + xs.length))
          (default : α)).length := by
        refine ⟨hb, Nat.zero_le _, ?_⟩
        simp only [List.length_append, List.length_nil]
        omega
      simp only [Store.write, hnil, hcov, and_self, if_true]
      simp only [Nat.sub_zero, List.nil_append]
      rw [List.getD_eq_getElem?_getD, List.getD_eq_getElem?_getD,
        List.getElem?_append_left hi]
    · intro b i hb _
      have hcov : ∀ n : Nat, ¬ (b = s.next ∧ 0 ≤ i ∧ i < 0 + n) := by
        intro n; omega
      simp only [Store.write, hcov, if_false]

theorem Store.append_inplace {α : Type} [Inhabited α] (g : Nat → Nat → Nat) (u : Store α)
    (r : SliceHdr) (xs : List α) (hl : r.len = xs.length) (hc : xs.length ≤ r.cap) :
    u.append g ⟨r.arr, r.off, 0, r.cap⟩ xs = (u.write r.arr r.off xs, r) := by
  have hc' : 0 + xs.length ≤ r.cap := by omega
  unfold Store.append
  simp only [hc', if_true, Nat.add_zero, Nat.zero_add, ← hl]
  have hc2 : r.len ≤ r.cap := by omega
  simp only [hc2, if_true]


/-- After a run of assignments every new header has the length of the
elements it received, within its capacity, and there is one per assignment. -/
theorem Store.assignAll_lens {α : Type} [Inhabited α] (g : Nat → Nat → Nat)
    (ps : List (SliceHdr × List α)) :
    ∀ s : Store α, (s.assignAll g ps).2.length = ps.length
      ∧ ∀ p ∈ (s.assignAll g ps).2.zip (ps.map (·.2)),
          p.1.len = p.2.length ∧ p.2.length ≤ p.1.cap := by
  induction ps with
  | nil => intro s; simp [Store.assignAll]
  | cons p rest ih =>
    intro s
    obtain ⟨h1, h2⟩ := ih (s.append g ⟨p.1.arr, p.1.off, 0, p.1.cap⟩ p.2).1
    simp only [Store.assignAll, List.length_cons, h1, List.map_cons, List.zip_cons_cons,
      List.mem_cons, true_and]
    intro q hq
    rcases hq with rfl | hq
    · exact (Store.assign_cell g s p.1 p.2).1
    · exact h2 q hq

theorem Store.append_next_le {α : Type} [Inhabited α] (g : Nat → Nat → Nat) (s : Store α)
    (r : SliceHdr) (xs : List α) : s.next ≤ (s.append g r xs).1.next := by
  unfold Store.append
  split
  · exact Nat.le_refl _
  · exact Nat.le_succ _

/-- A run of assignments changes an allocated cell only if it lies in one of
the new buffers. -/
theorem Store.assignAll_unchanged {α : Type} [Inhabited α] (g : Nat → Nat → Nat)
    (ps : List (SliceHdr × List α)) :
    ∀ s : Store α, ∀ b i, b < s.next →
      (∀ p ∈ (s.assignAll g ps).2.zip (ps.map (·.2)),
        ¬ (b = p.1.arr ∧ p.1.off ≤ i ∧ i < p.1.off + p.2.length)) →
      (s.assignAll g ps).1.cell b i = s.cell b i := by
  induction ps with
  | nil => intro s b i _ _; rfl
  | cons p rest ih =>
    intro s b i hb hn
    simp only [Store.assignAll, List.map_cons, List.zip_cons_cons, List.mem_cons,
      forall_eq_or_imp] at hn ⊢
    obtain ⟨_, _, h3⟩ := Store.assign_cell g s p.1 p.2
    have hmono := Store.append_next_le g s ⟨p.1.arr, p.1.off, 0, p.1.cap⟩ p.2
    rw [ih _ b i (Nat.lt_of_lt_of_le hb hmono) hn.2]
    exact h3 b i hb hn.1

/-- After a run of assignments, a cell of a new buffer that no later new
buffer contains holds the element assigned to it. -/
theorem Store.assignAll_last {α : Type} [Inhabited α] (g : Nat → Nat → Nat)
    (ps : List (SliceHdr × List α)) :
    ∀ s : Store α, (∀ p ∈ ps, p.1.cap = 0 ∨ p.1.arr < s.next) →
      ∀ l1 p l2, (s.assignAll g ps).2.zip (ps.map (·.2)) = l1 ++ p :: l2 →
      ∀ b i, (b = p.1.arr ∧ p.1.off ≤ i ∧ i < p.1.off + p.2.length) →
      (∀ q ∈ l2, ¬ (b = q.1.arr ∧ q.1.off ≤ i ∧ i < q.1.off + q.2.length)) →
      (s.assignAll g ps).1.cell b i = p.2.getD (i - p.1.off) default := by
  induction ps with
  | nil =>
    intro s _ l1 p l2 hz
    simp [Store.assignAll] at hz
  | cons p0 rest ih =>
    intro s hl l1 p l2 hz b i hcov hlater
    obtain ⟨_, hA2, hA3, _, _⟩ :=
      Store.assign_spec g s p0.1 p0.2 (hl p0 (List.mem_cons_self _ _))
    have hl' : ∀ q ∈ rest, q.1.cap = 0
        ∨ q.1.arr < (s.append g ⟨p0.1.arr, p0.1.off, 0, p0.1.cap⟩ p0.2).1.next := by
      intro q hq
      have := hl q (List.mem_cons_of_mem _ hq)
      omega
    simp only [Store.assignAll, List.map_cons, List.zip_cons_cons] at hz ⊢
    cases l1 with
    | nil =>
      simp only [List.nil_append, List.cons.injEq] at hz
      obtain ⟨hp, hrest⟩ := hz
      obtain ⟨⟨hlen, hcap⟩, h2, _⟩ := Store.assign_cell g s p0.1 p0.2
      subst hp
      simp only at hcov hlater ⊢
      have hb : b < (s.append g ⟨p0.1.arr, p0.1.off, 0, p0.1.cap⟩ p0.2).1.next := by
        have := hA2.2
        omega
      rw [Store.assignAll_unchanged g rest _ b i hb (by rw [hrest]; exact hlater)]
      exact h2 b i hcov.1 hcov.2.1 hcov.2.2
    | cons x l1' =>
      simp only [List.cons_append, List.cons.injEq] at hz
      exact ih _ hl' l1' p l2 hz.2 b i hcov hlater


/-- A run of assignments to buffers that already have the length of what
they receive writes in place; it ends in the cells `c` when `c` agrees with
the start outside the buffers and holds, in each buffer cell that no later
buffer contains, the element assigned there. -/
theorem Store.assignAll_inplace {α : Type} [Inhabited α] (g : Nat → Nat → Nat)
    (hx : List (SliceHdr × List α)) :
    ∀ (u : Store α) (c : Nat → Nat → α),
      (∀ p ∈ hx, p.1.len = p.2.length ∧ p.2.length ≤ p.1.cap) →
      (∀ b i, (∀ p ∈ hx, ¬ (b = p.1.arr ∧ p.1.off ≤ i ∧ i < p.1.off + p.2.length)) →
        u.cell b i = c b i) →
      (∀ l1 p l2, hx = l1 ++ p :: l2 → ∀ b i,
        (b = p.1.arr ∧ p.1.off ≤ i ∧ i < p.1.off + p.2.length) →
        (∀ q ∈ l2, ¬ (b = q.1.arr ∧ q.1.off ≤ i ∧ i < q.1.off + q.2.length)) →
        c b i = p.2.getD (i - p.1.off) default) →
      u.assignAll g hx = (⟨c, u.next⟩, hx.map (·.1)) := by
  induction hx with
  | nil =>
    intro u c _ h1 _
    have hc : u.cell = c := by
      funext b i
      exact h1 b i (by simp)
    cases u
    simp only at hc
    simp [Store.assignAll, hc]
  | cons p rest ih =>
    intro u c hg h1 h2
    obtain ⟨hlen, hcap⟩ := hg p (List.mem_cons_self _ _)
    have hA := Store.append_inplace g u p.1 p.2 hlen hcap
    have hgo := ih (u.write p.1.arr p.1.off p.2) c
      (fun q hq => hg q (List.mem_cons_of_mem _ hq))
      (by
        intro b i hn
        by_cases hcov : b = p.1.arr ∧ p.1.off ≤ i ∧ i < p.1.off + p.2.length
        · rw [h2 [] p rest rfl b i hcov hn]
          simp only [Store.write, hcov, and_self, if_true]
        · rw [← h1 b i (by
            intro q hq
            rcases List.mem_cons.mp hq with rfl | hq
            · exact hcov
            · exact hn q hq)]
          simp only [Store.write, hcov, if_false])
      (by
        intro l1 q l2 hq b i hcov hlater
        exact h2 (p :: l1) q l2 (by rw [hq]; rfl) b i hcov hlater)
    simp only [Store.assignAll, hA, hgo, List.map_cons]
    rfl

/-- Repeating a run of assignments, with the same elements, on the buffers
it produced changes nothing: the storage and the headers stay as they are. The
buffers assigned to may share storage with one another. -/
theorem Store.assignAll_idem {α : Type} [Inhabited α] (g : Nat → Nat → Nat)
    (ps : List (SliceHdr × List α)) (s : Store α)
    (hl : ∀ p ∈ ps, p.1.cap = 0 ∨ p.1.arr < s.next) :
    (s.assignAll g ps).1.assignAll g ((s.assignAll g ps).2.zip (ps.map (·.2)))
      = s.assignAll g ps := by
  obtain ⟨hlen, hgood⟩ := Store.assignAll_lens g ps s
  have h := Store.assignAll_inplace g ((s.assignAll g ps).2.zip (ps.map (·.2)))
    (s.assignAll g ps).1 (s.assignAll g ps).1.cell hgood (fun _ _ _ => rfl)
    (fun l1 p l2 hz b i hcov hlater =>
      Store.assignAll_last g ps s hl l1 p l2 hz b i hcov hlater)
  rw [h, List.map_fst_zip _ _ (by simp [hlen])]


/-- `Copy` of the same source a second time returns the memory and the
destination the first call left, when the buffers of the destination do not
alias those of the source. The destination's own buffers may share storage. -/
theorem TokenHdr.Copy_twice (g : Nat → Nat → Nat) (h : Heap) (dst src : TokenHdr)
    (hd : h.Sound dst) (hs : h.Sound src) (hc : src.ClearOf dst) :
    ∃ h1 c1, dst.Copy g h src = .ok (h1, c1) ∧ c1.Copy g h1 src = .ok (h1, c1) := by
  have e := TokenHdr.Copy_assignAll g h dst src hd hs hc
  have hlive : ∀ p ∈ [(dst.Name.Space, h.bytes.read src.Name.Space),
      (dst.Name.Local, h.bytes.read src.Name.Local),
      (dst.Name.Full, h.bytes.read src.Name.Full),
      (dst.Data, h.bytes.read src.Data)], p.1.cap = 0 ∨ p.1.arr < h.bytes.next := by
    intro p hp
    have : p.1 ∈ dst.bufs := by
      simp only [List.mem_cons, List.mem_singleton, List.not_mem_nil, or_false] at hp
      rcases hp with rfl | rfl | rfl | rfl <;> simp [TokenHdr.bufs]
    exact (hd.1 _ this).2
  have hlivea : ∀ p ∈ [(dst.Attrs, h.attrs.read src.Attrs)],
      p.1.cap = 0 ∨ p.1.arr < h.attrs.next := by
    intro p hp
    simp only [List.mem_singleton] at hp
    rw [hp]
    exact hd.2.2
  have fr := Store.assignAll_frame g _ h.bytes hlive
  have fra := Store.assignAll_frame g _ h.attrs hlivea
  have idem := Store.assignAll_idem g _ h.bytes hlive
  have idema := Store.assignAll_idem g _ h.attrs hlivea
  obtain ⟨r1, r2, r3, r4, hr⟩ : ∃ r1 r2 r3 r4, (h.bytes.assignAll g
      [(dst.Name.Space, h.bytes.read src.Name.Space),
        (dst.Name.Local, h.bytes.read src.Name.Local),
        (dst.Name.Full, h.bytes.read src.Name.Full),
        (dst.Data, h.bytes.read src.Data)]).2 = [r1, r2, r3, r4] := ⟨_, _, _, _, rfl⟩
  obtain ⟨ra, hra⟩ : ∃ ra, (h.attrs.assignAll g [(dst.Attrs, h.attrs.read src.Attrs)]).2
      = [ra] := ⟨_, rfl⟩
  rw [hr] at e fr
  rw [hra] at e fra
  simp only [List.getD_cons_zero, List.getD_cons_succ] at e
  simp only [List.mem_cons, List.mem_singleton, List.not_mem_nil, or_false, forall_eq_or_imp,
    forall_eq] at fr fra
  obtain ⟨fn, ⟨l1, l2, l3, l4⟩, ff⟩ := fr
  obtain ⟨fna, la, ffa⟩ := fra
  -- the source is unchanged by the first call and still not aliased
  have hsrc : ∀ x ∈ src.bufs, (h.bytes.assignAll g
      [(dst.Name.Space, h.bytes.read src.Name.Space),
        (dst.Name.Local, h.bytes.read src.Name.Local),
        (dst.Name.Full, h.bytes.read src.Name.Full),
        (dst.Data, h.bytes.read src.Data)]).1.read x = h.bytes.read x
      ∧ x.Clear r1 ∧ x.Clear r2 ∧ x.Clear r3 ∧ x.Clear r4 := by
    intro x hx
    have hcx := hc.1 x hx
    simp only [TokenHdr.bufs, List.mem_cons, List.mem_singleton, List.not_mem_nil,
      or_false, forall_eq_or_imp, forall_eq] at hcx
    exact ff x (hs.1 x hx) hcx
  have hsa := ffa src.Attrs hs.2 hc.2
  have b1 := hsrc src.Name.Space (by simp [TokenHdr.bufs])
  have b2 := hsrc src.Name.Local (by simp [TokenHdr.bufs])
  have b3 := hsrc src.Name.Full (by simp [TokenHdr.bufs])
  have b4 := hsrc src.Data (by simp [TokenHdr.bufs])
  refine ⟨_, _, e, ?_⟩
  have e2 := TokenHdr.Copy_assignAll g _ _ src
    (show Heap.Sound ⟨_, _⟩ ⟨⟨r1, r2, r3⟩, ra, r4, src.SelfClosing⟩ from
      ⟨by
        intro r hr
        simp only [TokenHdr.bufs, List.mem_cons, List.mem_singleton, List.not_mem_nil,
          or_false] at hr
        rcases hr with rfl | rfl | rfl | rfl <;> assumption, la⟩)
    (Heap.Sound_mono h _ src hs fn fna)
    (show src.ClearOf ⟨⟨r1, r2, r3⟩, ra, r4, src.SelfClosing⟩ from
      ⟨by
        intro x hx r hr
        simp only [TokenHdr.bufs, List.mem_cons, List.mem_singleton, List.not_mem_nil,
          or_false] at hr
        have := hsrc x hx
        rcases hr with rfl | rfl | rfl | rfl
        · exact this.2.1
        · exact this.2.2.1
        · exact this.2.2.2.1
        · exact this.2.2.2.2, hsa.2⟩)
  rw [e2]
  simp only [b1.1, b2.1, b3.1, b4.1, hsa.1]
  rw [hr] at idem
  rw [hra] at idema
  simp only [List.map_cons, List.map_nil, List.zip_cons_cons, List.zip_nil_right] at idem idema
  rw [idem, idema, hr, hra]
  rfl


/-! ## Tokens in memory -/

theorem SyncPool.Get_nil {α : Type} (p : SyncPool α) (pick : Nat) (h : p.free = []) :
    p.Get pick = (p.New (), p) := by
  unfold SyncPool.Get
  rw [h]

theorem SyncPool.Get_mem {α : Type} (p : SyncPool α) (pick : Nat) (h : p.free ≠ []) :
    (p.Get pick).1 ∈ p.free := by
  unfold SyncPool.Get
  cases hf : p.free with
  | nil => exact absurd hf h
  | cons x xs => exact List.get_mem _ _ _

theorem SyncPool.Get_New {α : Type} (p : SyncPool α) (pick : Nat) :
    (p.Get pick).2.New = p.New := by
  unfold SyncPool.Get
  cases p.free <;> rfl

theorem SyncPool.Get_free_subset {α : Type} (p : SyncPool α) (pick : Nat) :
    ∀ x ∈ (p.Get pick).2.free, x ∈ p.free := by
  intro x hx
  unfold SyncPool.Get at hx
  cases hf : p.free with
  | nil => rw [hf] at hx; simp [hf] at hx
  | cons y ys =>
    rw [hf] at hx
    exact List.mem_of_mem_eraseIdx hx

theorem runCalls_New (calls : List PoolCall) :
    ∀ st : SyncPool Token, (runCalls st calls).New = st.New := by
  induction calls with
  | nil => intro st; rfl
  | cons c cs ih =>
    intro st
    cases c with
    | get pick =>
      simp only [runCalls]
      rw [ih, GetToken, SyncPool.Get_New]
    | put t =>
      simp only [runCalls]
      rw [ih]
      rfl

theorem runCalls_free (calls : List PoolCall) :
    ∀ st : SyncPool Token, ∀ x ∈ (runCalls st calls).free,
      x ∈ st.free ∨ x ∈ released calls := by
  induction calls with
  | nil => intro st x hx; exact Or.inl hx
  | cons c cs ih =>
    intro st x hx
    cases c with
    | get pick =>
      simp only [runCalls] at hx
      rcases ih _ x hx with h | h
      · exact Or.inl (SyncPool.Get_free_subset st pick x h)
      · exact Or.inr h
    | put t =>
      simp only [runCalls] at hx
      rcases ih _ x hx with h | h
      · simp only [PutToken, SyncPool.Put, List.mem_cons] at h
        rcases h with h | h
        · exact Or.inr (by simp [released, h])
        · exact Or.inl h
      · exact Or.inr (by simp [released, h])

/-! ## Classification and pairing: claims -/

/-- C1: `IsEndElementOf(t, start)` always returns, and returns true if and
only if `IsEndElement(t)` is true and `t.Name.Full` without its first byte
equals `start.Name.Full` byte for byte. Equivalently, when `t.Name.Full` is
`"/"` followed by `n` and `start.Name.Full` is `m`, it is true exactly when
`n = m`. -/
theorem isEndElementOf_iff (t start : Token) :
    (∃ b, t.IsEndElementOf start = .ok b)
    ∧ (t.IsEndElementOf start = .ok true ↔
        t.IsEndElement = .ok true ∧ t.Name.Full.toList.tail = start.Name.Full.toList)
    ∧ (∀ n m : List Byte, t.Name.Full.toList = slash :: n → start.Name.Full.toList = m →
        (t.IsEndElementOf start = .ok true ↔ n = m)) := by
  refine ⟨⟨_, Token.IsEndElementOf_eq t start⟩, ?_, ?_⟩
  · rw [Token.IsEndElementOf_eq, Token.IsEndElement_eq]
    simp
  · intro n m hn hm
    rw [Token.IsEndElementOf_eq, hn, hm]
    simp

/-- C1 at concrete names: `"/foo"` closes `"foo"`, `"/bar"` does not close
`"foo"`, and `"/foo"` does not close `"bar"`. -/
theorem isEndElementOf_iff_witness :
    (tokenNamed (bytes "/foo")).IsEndElementOf (tokenNamed (bytes "foo")) = .ok true
    ∧ (tokenNamed (bytes "/bar")).IsEndElementOf (tokenNamed (bytes "foo")) ≠ .ok true
    ∧ (tokenNamed (bytes "/foo")).IsEndElementOf (tokenNamed (bytes "bar")) ≠ .ok true :=
  ⟨((isEndElementOf_iff (tokenNamed (bytes "/foo")) (tokenNamed (bytes "foo"))).2.2
      (bytes "foo") (bytes "foo") (by decide) (by decide)).2 rfl,
    fun h => absurd
      (((isEndElementOf_iff (tokenNamed (bytes "/bar")) (tokenNamed (bytes "foo"))).2.2
        (bytes "bar") (bytes "foo") (by decide) (by decide)).1 h) (by decide),
    fun h => absurd
      (((isEndElementOf_iff (tokenNamed (bytes "/foo")) (tokenNamed (bytes "bar"))).2.2
        (bytes "foo") (bytes "bar") (by decide) (by decide)).1 h) (by decide)⟩

/-- C2: `IsEndElement(t)` always returns, and returns true if and only if
`t.Name.Full` is non-empty and its first byte is `'/'`: true whenever
`t.Name.Full` is `"/"` followed by any bytes, false when it is empty or
starts with another byte. -/
theorem isEndElement_iff (t : Token) :
    (∃ b, t.IsEndElement = .ok b)
    ∧ (t.IsEndElement = .ok true ↔
        0 < t.Name.Full.len ∧ t.Name.Full.toList.head? = some slash)
    ∧ (∀ s : List Byte, t.Name.Full.toList = slash :: s → t.IsEndElement = .ok true)
    ∧ (t.Name.Full.toList = [] → t.IsEndElement = .ok false)
    ∧ (∀ (b : Byte) (s : List Byte), t.Name.Full.toList = b :: s → b ≠ slash →
        t.IsEndElement = .ok false) := by
  refine ⟨⟨_, Token.IsEndElement_eq t⟩, ?_, ?_, ?_, ?_⟩
  · rw [Token.IsEndElement_eq, ← Slice.toList_length]
    cases h : t.Name.Full.toList <;> simp
  · intro s hs
    rw [Token.IsEndElement_eq, hs]
    simp
  · intro hs
    rw [Token.IsEndElement_eq, hs]
    simp
  · intro b s hs hb
    rw [Token.IsEndElement_eq, hs]
    simp [hb]

/-- C2 at concrete names: `"/gpx"` is an end element, the empty name and
`"gpx"` are not. -/
theorem isEndElement_iff_witness :
    (tokenNamed (bytes "/gpx")).IsEndElement = .ok true
    ∧ (tokenNamed []).IsEndElement = .ok false
    ∧ (tokenNamed (bytes "gpx")).IsEndElement = .ok false :=
  ⟨(isEndElement_iff (tokenNamed (bytes "/gpx"))).2.2.1 (bytes "gpx") (by decide),
    (isEndElement_iff (tokenNamed [])).2.2.2.1 (by decide),
    (isEndElement_iff (tokenNamed (bytes "gpx"))).2.2.2.2 103 (bytes "px") (by decide)
      (by decide)⟩

/-- C5: pairing compares the combined qualified name, not the local part.
For tokens with equal `Name.Local`, when `t.Name.Full` is `"/"`, a qualifier
`q1` and a remainder `l`, and `start.Name.Full` is a different qualifier `q2`
and the same `l`, then `t` is an end element and `IsEndElementOf(t, start)` is
false. -/
theorem isEndElementOf_prefix_mismatch (t start : Token) (q1 q2 l : List Byte)
    (hl : t.Name.Local.toList = start.Name.Local.toList)
    (ht : t.Name.Full.toList = slash :: (q1 ++ l))
    (hs : start.Name.Full.toList = q2 ++ l)
    (hq : q1 ≠ q2) :
    t.IsEndElement = .ok true ∧ t.IsEndElementOf start = .ok false := by
  have _ := hl
  constructor
  · rw [Token.IsEndElement_eq, ht]
    simp
  · rw [Token.IsEndElementOf_eq, ht, hs]
    simp [hq]

/-- C5 at `"/a:foo"` against `"b:foo"`, both with local part `"foo"`. -/
theorem isEndElementOf_prefix_mismatch_witness :
    (tokenQualified (bytes "a") (bytes "foo") (bytes "/a:foo")).IsEndElementOf
      (tokenQualified (bytes "b") (bytes "foo") (bytes "b:foo")) = .ok false :=
  (isEndElementOf_prefix_mismatch
    (tokenQualified (bytes "a") (bytes "foo") (bytes "/a:foo"))
    (tokenQualified (bytes "b") (bytes "foo") (bytes "b:foo"))
    (bytes "a:") (bytes "b:") (bytes "foo")
    (by decide) (by decide) (by decide) (by decide)).2

/-! ## Snapshot: claims -/

/-- C3, as stated, fails: the destination's three names are slices of one
buffer and share nothing with the source, yet after `Copy` the destination's
`Name.Local` reads `:e` where the source's reads `el`. -/
theorem copy_into_shared_buffer_loses_local :
    lexedHeap.Sound lexedToken ∧ lexedHeap.Sound otherToken
    ∧ otherToken.ClearOf lexedToken
    ∧ ∃ r, lexedToken.Copy doubling lexedHeap otherToken = .ok r
      ∧ r.1.bytes.read r.2.Name.Local = bytes ":e"
      ∧ lexedHeap.bytes.read otherToken.Name.Local = bytes "el"
      ∧ r.1.bytes.read otherToken.Name.Local = bytes "el" :=
  ⟨by decide, by decide, by decide, _, rfl, by decide, by decide, by decide⟩

/-- C3, amended: for every destination `dst` whose buffers share no storage
with one another, whatever it held before, and every source `src` whose
buffers `dst`'s do not alias (both well formed in the memory `h`), `dst.Copy(src)` returns the updated destination,
whose `Name.Space`, `Name.Local`, `Name.Full` and `Data` hold exactly the bytes
of `src`, whose `Attrs` is the same sequence as that of `src`, and whose
`SelfClosing` equals that of `src`; `src` itself is unchanged. -/
theorem copy_overwrites (g : Nat → Nat → Nat) (h : Heap) (dst src : TokenHdr)
    (hd : h.Sound dst) (hs : h.Sound src) (hsep : dst.Separate) (hc : src.ClearOf dst) :
    ∃ h' c, dst.Copy g h src = .ok (h', c)
      ∧ h'.bytes.read c.Name.Space = h.bytes.read src.Name.Space
      ∧ h'.bytes.read c.Name.Local = h.bytes.read src.Name.Local
      ∧ h'.bytes.read c.Name.Full = h.bytes.read src.Name.Full
      ∧ h'.bytes.read c.Data = h.bytes.read src.Data
      ∧ h'.attrs.read c.Attrs = h.attrs.read src.Attrs
      ∧ c.Attrs.len = src.Attrs.len
      ∧ c.SelfClosing = src.SelfClosing
      ∧ h'.view src = h.view src := by
  obtain ⟨h', c, e, hv, _, _, _, _, hq⟩ := TokenHdr.Copy_spec g h dst src hd hs hsep hc
  have ha : h'.attrs.read c.Attrs = h.attrs.read src.Attrs := congrArg TokenView.Attrs hv
  refine ⟨h', c, e, congrArg TokenView.Space hv, congrArg TokenView.Local hv,
    congrArg TokenView.Full hv, congrArg TokenView.Data hv, ha, ?_,
    congrArg TokenView.SelfClosing hv, (hq src hs hc).1⟩
  rw [← Store.read_length h'.attrs c.Attrs, ha, Store.read_length]

/-- C3, amended, on a pooled token whose buffers hold longer contents than
the source `<xs:el id="1">Hi`. -/
theorem copy_overwrites_witness :
    pooledHeap.bytes.read pooledToken.Name.Full = bytes "oldns:oldlocal"
    ∧ pooledHeap.bytes.read startToken.Name.Full = bytes "xs:el"
    ∧ ∃ h' c, pooledToken.Copy doubling pooledHeap startToken = .ok (h', c)
      ∧ h'.bytes.read c.Name.Space = pooledHeap.bytes.read startToken.Name.Space
      ∧ h'.bytes.read c.Name.Local = pooledHeap.bytes.read startToken.Name.Local
      ∧ h'.bytes.read c.Name.Full = pooledHeap.bytes.read startToken.Name.Full
      ∧ h'.bytes.read c.Data = pooledHeap.bytes.read startToken.Data
      ∧ h'.attrs.read c.Attrs = pooledHeap.attrs.read startToken.Attrs
      ∧ c.Attrs.len = startToken.Attrs.len
      ∧ c.SelfClosing = startToken.SelfClosing
      ∧ h'.view startToken = pooledHeap.view startToken :=
  ⟨by decide, by decide,
    copy_overwrites doubling pooledHeap pooledToken startToken (by decide) (by decide)
      (by decide) (by decide)⟩

/-- C4, as stated, fails: the source's `Name.Space` views the array of the
destination's `Data`. The first `Copy` leaves `Name.Space` reading `ddd`, the
second leaves it reading `new`. -/
theorem copy_twice_aliased_source :
    aliasedHeap.Sound dataToken ∧ aliasedHeap.Sound viewingToken
    ∧ ∃ r1 r2, dataToken.Copy doubling aliasedHeap viewingToken = .ok r1
      ∧ r1.2.Copy doubling r1.1 viewingToken = .ok r2
      ∧ r1.1.bytes.read r1.2.Name.Space = bytes "ddd"
      ∧ r2.1.bytes.read r2.2.Name.Space = bytes "new"
      ∧ r2.1.view r2.2 ≠ r1.1.view r1.2 :=
  ⟨by decide, by decide, _, _, rfl, rfl, by decide, by decide, by decide⟩

/-- C4, amended: `Copy` is idempotent when the destination's buffers do not
alias the source's (both tokens well formed in the memory `h`). Copying the same `src` into `dst` twice in a row succeeds
both times, and the second call leaves the memory and the destination exactly
as the first did, hence the same field values. The destination's own buffers
may share storage with one another. -/
theorem copy_idempotent (g : Nat → Nat → Nat) (h : Heap) (dst src : TokenHdr)
    (hd : h.Sound dst) (hs : h.Sound src) (hc : src.ClearOf dst) :
    ∃ h1 c1 h2 c2, dst.Copy g h src = .ok (h1, c1) ∧ c1.Copy g h1 src = .ok (h2, c2)
      ∧ h2.view c2 = h1.view c1 ∧ c2 = c1 := by
  obtain ⟨h1, c1, e1, e2⟩ := TokenHdr.Copy_twice g h dst src hd hs hc
  exact ⟨h1, c1, h1, c1, e1, e2, rfl, rfl⟩

/-- C4, amended, on a destination whose three names are slices of one buffer:
the second `Copy` leaves what the first left. -/
theorem copy_idempotent_witness :
    ¬ lexedToken.Separate
    ∧ ∃ h1 c1 h2 c2, lexedToken.Copy doubling lexedHeap otherToken = .ok (h1, c1)
      ∧ c1.Copy doubling h1 otherToken = .ok (h2, c2)
      ∧ h2.view c2 = h1.view c1 ∧ c2 = c1 :=
  ⟨by decide,
    copy_idempotent doubling lexedHeap lexedToken otherToken (by decide) (by decide)
      (by decide)⟩

/-- C6: `IsEndElement`, `IsEndElementOf` and `Copy` return for every token,
without an index or slice out of range. The index `t.Name.Full[0]` and the
slice `t.Name.Full[1:]` succeed when `len(t.Name.Full) >= 1`; on an empty
`Name.Full` they would panic, and both predicates return false without
reaching them. The truncation `x[:0]` succeeds on every buffer, and `Copy`
returns in every memory, for every destination and source, whatever storage
their buffers share. -/
theorem operations_total (g : Nat → Nat → Nat) (t t2 : Token) :
    (∃ b, t.IsEndElement = .ok b)
    ∧ (∃ b, t.IsEndElementOf t2 = .ok b)
    ∧ (∀ (h : Heap) (d s : TokenHdr), ∃ r, d.Copy g h s = .ok r)
    ∧ (1 ≤ t.Name.Full.len →
        (∃ b, t.Name.Full.index 0 = .ok b)
        ∧ ∃ r, t.Name.Full.reslice 1 t.Name.Full.len = .ok r)
    ∧ (t.Name.Full.len = 0 →
        t.Name.Full.index 0 = .error .indexOutOfRange
        ∧ t.Name.Full.reslice 1 t.Name.Full.len = .error .sliceBoundsOutOfRange
        ∧ t.IsEndElement = .ok false
        ∧ t.IsEndElementOf t2 = .ok false)
    ∧ (∀ s : Slice Byte, ∃ r, s.reslice 0 0 = .ok r ∧ r.len = 0)
    ∧ (∀ s : Slice Attr, ∃ r, s.reslice 0 0 = .ok r ∧ r.len = 0) := by
  refine ⟨⟨_, Token.IsEndElement_eq t⟩, ⟨_, Token.IsEndElementOf_eq t t2⟩, ?_, ?_, ?_, ?_, ?_⟩
  · intro h d s
    obtain ⟨_, _, _, _, _, _, _, _, hr⟩ := TokenHdr.Copy_eq g h d s
    exact ⟨_, hr⟩
  · intro h
    obtain ⟨a, ha, _⟩ := Slice.index_zero_eq t.Name.Full h
    obtain ⟨r, hr, _⟩ := Slice.reslice_tail t.Name.Full h
    exact ⟨⟨a, ha⟩, ⟨r, hr⟩⟩
  · intro h
    have h0 : t.Name.Full.toList = [] := by
      apply List.eq_nil_of_length_eq_zero
      rw [Slice.toList_length, h]
    refine ⟨?_, ?_, ?_, ?_⟩
    · simp [Slice.index, h]
    · simp [Slice.reslice, h]
    · rw [Token.IsEndElement_eq, h0]; rfl
    · rw [Token.IsEndElementOf_eq, h0]; rfl
  · intro s
    exact ⟨_, Slice.reslice_zero_eq s, rfl⟩
  · intro s
    exact ⟨_, Slice.reslice_zero_eq s, rfl⟩

/-- C6 on the zero token, whose `Name.Full`, `Attrs` and `Data` are nil: the
guarded index and slice would panic, and both predicates return false. -/
theorem operations_total_witness :
    newToken.Name.Full.len = 0
    ∧ newToken.Name.Full.index 0 = .error .indexOutOfRange
    ∧ newToken.Name.Full.reslice 1 newToken.Name.Full.len = .error .sliceBoundsOutOfRange
    ∧ newToken.IsEndElement = .ok false
    ∧ newToken.IsEndElementOf newToken = .ok false :=
  ⟨rfl, (operations_total (fun _ n => n) newToken newToken).2.2.2.2.1 rfl⟩

/-! ## Pool: claims -/

/-- C7, as stated, fails: a populated token released with `PutToken` and
handed out again by `GetToken` comes back as it was released, with
`Name.Space`, `Name.Local`, `Name.Full`, `Attrs` and `Data` of lengths
1, 3, 5, 1 and 5, none of them zero. -/
theorem getToken_after_put_keeps_lengths :
    (GetToken (PutToken pool populatedToken) 0).1 = populatedToken
    ∧ (GetToken (PutToken pool populatedToken) 0).1.Name.Space.len = 1
    ∧ (GetToken (PutToken pool populatedToken) 0).1.Name.Local.len = 3
    ∧ (GetToken (PutToken pool populatedToken) 0).1.Name.Full.len = 5
    ∧ (GetToken (PutToken pool populatedToken) 0).1.Attrs.len = 1
    ∧ (GetToken (PutToken pool populatedToken) 0).1.Data.len = 5
    ∧ ¬ ((GetToken (PutToken pool populatedToken) 0).1.Name.Space.len = 0
        ∧ (GetToken (PutToken pool populatedToken) 0).1.Name.Local.len = 0
        ∧ (GetToken (PutToken pool populatedToken) 0).1.Name.Full.len = 0
        ∧ (GetToken (PutToken pool populatedToken) 0).1.Attrs.len = 0
        ∧ (GetToken (PutToken pool populatedToken) 0).1.Data.len = 0) := by
  refine ⟨rfl, rfl, rfl, rfl, rfl, rfl, ?_⟩
  intro h
  exact absurd h.1 (by decide)

/-- C7, amended: a token released with `PutToken` and handed out again by
`GetToken` is the token as it was released, so each of `Name.Space`,
`Name.Local`, `Name.Full`, `Attrs` and `Data` has the length it had at
release, which is zero only if it was zero then; the pool is left as it was
before the release. -/
theorem getToken_after_put (free : List Token) (t : Token) (pick : Nat)
    (h : pick % (free.length + 1) = 0) :
    (GetToken (PutToken (poolWith free) t) pick).1 = t
    ∧ (GetToken (PutToken (poolWith free) t) pick).2 = poolWith free
    ∧ (GetToken (PutToken (poolWith free) t) pick).1.Name.Space.len = t.Name.Space.len
    ∧ (GetToken (PutToken (poolWith free) t) pick).1.Name.Local.len = t.Name.Local.len
    ∧ (GetToken (PutToken (poolWith free) t) pick).1.Name.Full.len = t.Name.Full.len
    ∧ (GetToken (PutToken (poolWith free) t) pick).1.Attrs.len = t.Attrs.len
    ∧ (GetToken (PutToken (poolWith free) t) pick).1.Data.len = t.Data.len := by
  have h1 : (GetToken (PutToken (poolWith free) t) pick).1 = t := by
    simp only [GetToken, PutToken, SyncPool.Put, SyncPool.Get, poolWith, List.length_cons,
      List.get_eq_getElem, h, List.getElem_cons_zero]
  have h2 : (GetToken (PutToken (poolWith free) t) pick).2 = poolWith free := by
    simp only [GetToken, PutToken, SyncPool.Put, SyncPool.Get, poolWith, List.length_cons,
      h, List.eraseIdx_cons_zero]
  refine ⟨h1, h2, ?_, ?_, ?_, ?_, ?_⟩ <;> rw [h1]

/-- C7, amended, on a pool that holds two other tokens: the populated token
comes back with its five lengths unchanged. -/
theorem getToken_after_put_witness :
    3 % ([newToken, tokenNamed (bytes "x")].length + 1) = 0
    ∧ (GetToken (PutToken (poolWith [newToken, tokenNamed (bytes "x")]) populatedToken) 3).1
        = populatedToken :=
  ⟨by decide,
    (getToken_after_put [newToken, tokenNamed (bytes "x")] populatedToken 3 (by decide)).1⟩

/-- C8: acquisition never fails. `GetToken` returns a token in every state of
the pool: with an empty free list, a newly constructed token whose
`Name.Space`, `Name.Local`, `Name.Full`, `Attrs` and `Data` have length zero
and whose `SelfClosing` is false; otherwise a token of the free list, which,
in any state reached from the initial pool, was released with `PutToken`. -/
theorem getToken_never_fails (free : List Token) (calls : List PoolCall) (pick : Nat) :
    (free = [] → (GetToken (poolWith free) pick).1 = newToken)
    ∧ (free ≠ [] → (GetToken (poolWith free) pick).1 ∈ free)
    ∧ ((runCalls pool calls).free = [] → (GetToken (runCalls pool calls) pick).1 = newToken)
    ∧ ((runCalls pool calls).free ≠ [] →
        (GetToken (runCalls pool calls) pick).1 ∈ (runCalls pool calls).free
        ∧ (GetToken (runCalls pool calls) pick).1 ∈ released calls)
    ∧ (newToken.Name.Space.len = 0 ∧ newToken.Name.Local.len = 0
        ∧ newToken.Name.Full.len = 0 ∧ newToken.Attrs.len = 0 ∧ newToken.Data.len = 0
        ∧ newToken.SelfClosing = false) := by
  refine ⟨?_, ?_, ?_, ?_, ⟨rfl, rfl, rfl, rfl, rfl, rfl⟩⟩
  · intro h
    rw [GetToken, SyncPool.Get_nil _ _ (by simpa [poolWith] using h)]
    rfl
  · intro h
    exact SyncPool.Get_mem (poolWith free) pick (by simpa [poolWith] using h)
  · intro h
    rw [GetToken, SyncPool.Get_nil _ _ h]
    show (runCalls pool calls).New () = newToken
    rw [runCalls_New]
    rfl
  · intro h
    have hm := SyncPool.Get_mem (runCalls pool calls) pick h
    refine ⟨hm, ?_⟩
    rcases runCalls_free calls pool _ hm with h1 | h1
    · simp [pool] at h1
    · exact h1

/-- C8 on a concrete history: after releasing two tokens and acquiring one,
the next acquisition returns a released token, and the one after that, the
free list being empty, a newly constructed token. -/
theorem getToken_never_fails_witness :
    (GetToken (runCalls pool [.put populatedToken, .put (tokenNamed (bytes "x")), .get 0]) 7).1
        ∈ released [.put populatedToken, .put (tokenNamed (bytes "x")), .get 0]
    ∧ (GetToken (runCalls pool
          [.put populatedToken, .put (tokenNamed (bytes "x")), .get 0, .get 5]) 7).1
        = newToken :=
  ⟨((getToken_never_fails [] [.put populatedToken, .put (tokenNamed (bytes "x")), .get 0]
      7).2.2.2.1 (by simp [runCalls, GetToken, PutToken, SyncPool.Put, SyncPool.Get, pool])).2,
    (getToken_never_fails []
      [.put populatedToken, .put (tokenNamed (bytes "x")), .get 0, .get 5] 7).2.2.1
      (by simp [runCalls, GetToken, PutToken, SyncPool.Put, SyncPool.Get, pool])⟩

/-! ## Derived properties of classification, pairing and snapshot: claims -/

/-- C12: no token is its own end element, `IsEndElementOf(t, t)` is false;
and whenever `IsEndElementOf(t, start)` is true, `len(t.Name.Full)` is
`len(start.Name.Full) + 1`. -/
theorem isEndElementOf_irreflexive (t start : Token) :
    t.IsEndElementOf t = .ok false
    ∧ (t.IsEndElementOf start = .ok true →
        t.Name.Full.len = start.Name.Full.len + 1) := by
  constructor
  · rw [Token.IsEndElementOf_eq]
    cases hl : t.Name.Full.toList with
    | nil => rfl
    | cons a r =>
      have hne : r ≠ a :: r := by
        intro h
        have := congrArg List.length h
        simp at this
      simp [hne]
  · intro h
    rw [Token.IsEndElementOf_eq] at h
    rw [← Slice.toList_length t.Name.Full, ← Slice.toList_length start.Name.Full]
    cases hl : t.Name.Full.toList with
    | nil => rw [hl] at h; simp at h
    | cons a r =>
      rw [hl] at h
      simp at h
      rw [← h.2]
      simp

/-- C12 at `"/foo"` against `"foo"`: the pairing holds and the lengths are 4
and 3; `"/foo"` does not close itself. -/
theorem isEndElementOf_irreflexive_witness :
    (tokenNamed (bytes "/foo")).IsEndElementOf (tokenNamed (bytes "/foo")) = .ok false
    ∧ (tokenNamed (bytes "/foo")).IsEndElementOf (tokenNamed (bytes "foo")) = .ok true
    ∧ (tokenNamed (bytes "/foo")).Name.Full.len = (tokenNamed (bytes "foo")).Name.Full.len + 1 :=
  ⟨(isEndElementOf_irreflexive (tokenNamed (bytes "/foo")) (tokenNamed (bytes "foo"))).1,
    rfl,
    (isEndElementOf_irreflexive (tokenNamed (bytes "/foo")) (tokenNamed (bytes "foo"))).2 rfl⟩

/-- C13: the classification predicates depend only on the bytes of
`Name.Full`. Tokens `t`, `t'` with the same `Name.Full` and tokens `s`, `s'`
with the same `Name.Full` give `IsEndElement(t) = IsEndElement(t')` and
`IsEndElementOf(t, s) = IsEndElementOf(t', s')`, whatever their `Name.Space`,
`Name.Local`, `Attrs`, `Data` and `SelfClosing` are. -/
theorem classification_depends_on_full (t t' s s' : Token)
    (ht : t.Name.Full.toList = t'.Name.Full.toList)
    (hs : s.Name.Full.toList = s'.Name.Full.toList) :
    t.IsEndElement = t'.IsEndElement ∧ t.IsEndElementOf s = t'.IsEndElementOf s' := by
  constructor
  · rw [Token.IsEndElement_eq, Token.IsEndElement_eq, ht]
  · rw [Token.IsEndElementOf_eq, Token.IsEndElementOf_eq, ht, hs]

/-- C13 on a token with `Name.Full` `"/x"`, every other field populated and
`SelfClosing` true: it is an end element, and the end element of a start
token named `"x"`, as the bare token named `"/x"` is. -/
theorem classification_depends_on_full_witness :
    reusedEndToken.SelfClosing = true
    ∧ reusedEndToken.IsEndElement = .ok true
    ∧ reusedEndToken.IsEndElementOf (tokenQualified [] (bytes "x") (bytes "x")) = .ok true :=
  ⟨rfl,
    (classification_depends_on_full (tokenNamed (bytes "/x")) reusedEndToken
      (tokenNamed (bytes "x")) (tokenQualified [] (bytes "x") (bytes "x"))
      (by decide) (by decide)).1.symm.trans rfl,
    (classification_depends_on_full (tokenNamed (bytes "/x")) reusedEndToken
      (tokenNamed (bytes "x")) (tokenQualified [] (bytes "x") (bytes "x"))
      (by decide) (by decide)).2.symm.trans rfl⟩

/-- C14: `IsEndElementOf` does not check that its argument is a start
element. A token whose `Name.Full` is exactly `"/"` is the end element of
every token with an empty `Name.Full`; and there are two end elements, named
`"//foo"` and `"/foo"`, of which the first is the end element of the second. -/
theorem isEndElementOf_ignores_start_kind (t start : Token) :
    (t.Name.Full.toList = [slash] → start.Name.Full.toList = [] →
        start.IsEndElement = .ok false ∧ t.IsEndElementOf start = .ok true)
    ∧ (∃ t' start' : Token,
        t'.Name.Full.toList = bytes "//foo" ∧ start'.Name.Full.toList = bytes "/foo"
        ∧ t'.IsEndElement = .ok true ∧ start'.IsEndElement = .ok true
        ∧ t'.IsEndElementOf start' = .ok true) := by
  constructor
  · intro ht hs
    constructor
    · rw [Token.IsEndElement_eq, hs]; rfl
    · rw [Token.IsEndElementOf_eq, ht, hs]; simp
  · exact ⟨tokenNamed (bytes "//foo"), tokenNamed (bytes "/foo"), rfl, rfl, rfl, rfl, rfl⟩

/-- C14 on the token named `"/"` against the zero token, whose `Name.Full`
is nil. -/
theorem isEndElementOf_ignores_start_kind_witness :
    newToken.Name.Full.toList = []
    ∧ newToken.IsEndElement = .ok false
    ∧ (tokenNamed (bytes "/")).IsEndElementOf newToken = .ok true :=
  ⟨rfl, (isEndElementOf_ignores_start_kind (tokenNamed (bytes "/")) newToken).1
    (by decide) (by decide)⟩

end Xmltokenizer
